import Mathlib

/-!
Verification development for MEC.py (Model Extender for COPASI).

The Python source is shallowly embedded over `List Char` / `String`.
Regular-expression scans from the source are rendered as explicit
character scanners with the same matching semantics (lazy / greedy /
leftmost, `.` not matching a newline).  Element names interpolated into
patterns are matched literally, as the source intends for plain names;
Python's `\w` and whitespace classes are modelled over ASCII.
-/

namespace MEC

/-- Quote character, written via its code point to keep the text plain. -/
def squote : Char := Char.ofNat 39

/-- ASCII word character, modelling the regex class backslash-w. -/
def isWordChar (c : Char) : Bool := c.isAlphanum || c = '_'

/-- Regex whitespace class (Python ASCII whitespace). -/
def isSpaceChar (c : Char) : Bool :=
  c = ' ' || c = Char.ofNat 9 || c = Char.ofNat 10 || c = Char.ofNat 13 ||
  c = Char.ofNat 11 || c = Char.ofNat 12

/-- Whitespace recognized by `shlex` (space, tab, carriage return, newline). -/
def isShlexWS (c : Char) : Bool :=
  c = ' ' || c = Char.ofNat 9 || c = Char.ofNat 13 || c = Char.ofNat 10

/-- Whitespace stripped by Python `float()` (ASCII). -/
def isPyWS (c : Char) : Bool := isSpaceChar c

/-- Continuation of a lazy scan: consume non-newline characters until the
first occurrence of `stop`, returning the content so far and the rest. -/
def lazyAux (stop : Char) : List Char → List Char → Option (List Char × List Char)
  | _, [] => none
  | acc, c :: cs =>
    if c = stop then some (acc.reverse, cs)
    else if c = Char.ofNat 10 then none
    else lazyAux stop (c :: acc) cs

/-- Lazy scan for a pattern of shape dot-plus-lazy followed by `stop`:
at least one content character (any non-newline character, the first one
may even equal `stop`), then the first later occurrence of `stop`. -/
def lazyScan (stop : Char) : List Char → Option (List Char × List Char)
  | [] => none
  | c :: cs => if c = Char.ofNat 10 then none else lazyAux stop [c] cs

/-- All decompositions `l = pre ++ [ch] ++ post` with `pre` free of
newlines, ordered by increasing `pre` length.  This enumerates the
candidate splits of a greedy or lazy star followed by the literal `ch`. -/
def candSplits (ch : Char) : List Char → List (List Char × List Char)
  | [] => []
  | c :: cs =>
    (if c = ch then [(([] : List Char), cs)] else []) ++
      (if c = Char.ofNat 10 then []
       else (candSplits ch cs).map (fun pq => (c :: pq.1, pq.2)))

/-- Replace every (leftmost, non-overlapping) occurrence of the literal
`pat` by `rep`, with explicit fuel for structural recursion. -/
def replaceAllF (pat rep : List Char) : Nat → List Char → List Char
  | _, [] => []
  | 0, s => s
  | fuel + 1, c :: cs =>
    if pat ≠ [] ∧ pat.isPrefixOf (c :: cs) then
      rep ++ replaceAllF pat rep fuel ((c :: cs).drop pat.length)
    else
      c :: replaceAllF pat rep fuel cs

/-- Replace every occurrence of the literal `pat` by `rep`. -/
def replaceAll (pat rep s : List Char) : List Char := replaceAllF pat rep s.length s

/-! ## Model catalog and element classifier (MEC.py lines 40-53) -/

/-- Snapshot of the source model's element names, one list per kind.
`mparams`, `mcomps`, `mspecs`, `mreacts` play the roles of the pandas
index columns in the script; the counts `seednparams` etc. are the list
lengths. -/
structure Catalog where
  mparams : List String
  mcomps : List String
  mspecs : List String
  mreacts : List String
deriving DecidableEq

/-- Catalog with no elements of any kind. -/
def emptyCat : Catalog := ⟨[], [], [], []⟩

/-- Translation of `is_element`: a candidate is an element when a
non-empty catalog of some kind contains it exactly (the count guard
mirrors `seednparams>0 and candidate in mparams.index` etc.). -/
def is_element (cat : Catalog) (candidate : String) : Bool :=
  if 0 < cat.mparams.length ∧ candidate ∈ cat.mparams then true
  else if 0 < cat.mcomps.length ∧ candidate ∈ cat.mcomps then true
  else if 0 < cat.mspecs.length ∧ candidate ∈ cat.mspecs then true
  else if 0 < cat.mreacts.length ∧ candidate ∈ cat.mreacts then true
  else false

/-- Classifier applied to a raw character list. -/
def isElemL (cat : Catalog) (el : List Char) : Bool := is_element cat (String.mk el)

/-! ## Expression rewriter `fix_expression` (MEC.py lines 56-96)

Each regex pass is modelled by a findall scanner plus a substitution,
folded over the candidate list exactly as the Python loop does. -/

/-- Scan for the anchored pattern `CN=Root,Model=(.+?),`: at least one
non-newline character after the fixed prefix, up to the first comma. -/
def cnScan : List Char → Option (List Char × List Char)
  | [] => none
  | c :: cs => if c = Char.ofNat 10 then none else lazyAux ',' [c] cs

/-- The fixed prefix of a qualified COPASI common name. -/
def cnPre : List Char := ("CN=Root,Model=").data

/-- First pass of `fix_expression`: if the expression starts with a
model-qualified path, the model-name segment is replaced by the new
model's name (no element check). -/
def cnPass (newname : List Char) (s : List Char) : List Char :=
  if cnPre.isPrefixOf s then
    match cnScan (s.drop cnPre.length) with
    | some pr => cnPre ++ newname ++ ',' :: pr.2
    | none => s
  else s

/-- Findall for `\[(.+?)\]` style patterns with delimiters `lc`/`rc`:
leftmost non-overlapping lazy matches, advancing one character on
failure, with fuel for structural recursion. -/
def delimFindallF (lc rc : Char) : Nat → List Char → List (List Char)
  | _, [] => []
  | 0, _ => []
  | fuel + 1, c :: cs =>
    if c = lc then
      match lazyScan rc cs with
      | some pr => pr.1 :: delimFindallF lc rc fuel pr.2
      | none => delimFindallF lc rc fuel cs
    else delimFindallF lc rc fuel cs

/-- Candidates of the bracket pass, regex `\[(.+?)\]`. -/
def bracketFindall (s : List Char) : List (List Char) := delimFindallF '[' ']' s.length s

/-- Candidates of the parenthesis pass, regex `\((.+?)\)`. -/
def parenFindall (s : List Char) : List (List Char) := delimFindallF '(' ')' s.length s

/-- Bracket pass: for each candidate found in the incoming expression,
if it classifies as an element, substitute `[el]` by `[el ++ suff]`
throughout the (evolving) expression. -/
def bracketPass (cat : Catalog) (suff : List Char) (s : List Char) : List Char :=
  (bracketFindall s).foldl
    (fun e el =>
      if isElemL cat el then
        replaceAll ('[' :: el ++ [']']) ('[' :: (el ++ suff) ++ [']']) e
      else e) s

/-- Parenthesis pass: same as the bracket pass with round delimiters. -/
def parenPass (cat : Catalog) (suff : List Char) (s : List Char) : List Char :=
  (parenFindall s).foldl
    (fun e el =>
      if isElemL cat el then
        replaceAll ('(' :: el ++ [')']) ('(' :: (el ++ suff) ++ [')']) e
      else e) s

/-- One attempt of the nested-parenthesis regex `\((.*\(.*\).*?)\)` at a
position whose opening parenthesis has been consumed: greedy first star,
literal `(`, greedy second star, literal `)`, lazy third star, literal
`)`, with full backtracking order (longest A first, then longest B,
then shortest C). -/
def nestedTryAt (rest : List Char) : Option (List Char × List Char) :=
  ((candSplits '(' rest).reverse).findSome? fun As =>
    ((candSplits ')' As.2).reverse).findSome? fun Bs =>
      ((candSplits ')' Bs.2).head?).map fun Cs =>
        (As.1 ++ '(' :: Bs.1 ++ ')' :: Cs.1, Cs.2)

/-- Findall for the nested-parenthesis special case. -/
def nestedFindallF : Nat → List Char → List (List Char)
  | _, [] => []
  | 0, _ => []
  | fuel + 1, c :: cs =>
    if c = '(' then
      match nestedTryAt cs with
      | some pr => pr.1 :: nestedFindallF fuel pr.2
      | none => nestedFindallF fuel cs
    else nestedFindallF fuel cs

/-- Candidates of the nested-parenthesis pass. -/
def nestedFindall (s : List Char) : List (List Char) := nestedFindallF s.length s

/-- Nested-parenthesis pass: the whole blob, when it classifies, is
substituted literally everywhere (the source escapes the parentheses of
the name before using it as a pattern). -/
def nestedPass (cat : Catalog) (suff : List Char) (s : List Char) : List Char :=
  (nestedFindall s).foldl
    (fun e el => if isElemL cat el then replaceAll el (el ++ suff) e else e) s

/-- Character class `[^\s\]\)]` of the dotted-attribute regex. -/
def inDottedClass (c : Char) : Bool := !(isSpaceChar c) && c ≠ ']' && c ≠ ')'

/-- Lazy continuation of the dotted-attribute scan: close as soon as a
literal dot followed by a word character is seen, otherwise extend the
candidate with the next in-class character. -/
def dottedAux : List Char → List Char → Option (List Char × List Char)
  | _, [] => none
  | acc, c :: cs =>
    if c = '.' then
      match cs with
      | w :: rest =>
        if isWordChar w then some (acc.reverse, rest) else dottedAux (c :: acc) cs
      | [] => none
    else if inDottedClass c then dottedAux (c :: acc) cs
    else none

/-- Try the dotted-attribute regex `([^\s\]\)]+?)\.\w` at the current
position (the candidate needs at least one character). -/
def dottedTry : List Char → Option (List Char × List Char)
  | [] => none
  | c :: cs => if inDottedClass c then dottedAux [c] cs else none

/-- Findall for the dotted-attribute pass. -/
def dottedFindallF : Nat → List Char → List (List Char)
  | _, [] => []
  | 0, _ => []
  | fuel + 1, c :: cs =>
    match dottedTry (c :: cs) with
    | some pr => pr.1 :: dottedFindallF fuel pr.2
    | none => dottedFindallF fuel cs

/-- Candidates of the dotted-attribute pass. -/
def dottedFindall (s : List Char) : List (List Char) := dottedFindallF s.length s

/-- Substitution of the dotted pass: every occurrence of `el` followed
by a dot and a word character becomes `elnew`, dot and word character
kept, continuing after the consumed word character. -/
def replaceDottedF (el elnew : List Char) : Nat → List Char → List Char
  | _, [] => []
  | 0, s => s
  | fuel + 1, c :: cs =>
    if el ≠ [] ∧ el.isPrefixOf (c :: cs) then
      match (c :: cs).drop el.length with
      | '.' :: w :: r2 =>
        if isWordChar w then elnew ++ '.' :: w :: replaceDottedF el elnew fuel r2
        else c :: replaceDottedF el elnew fuel cs
      | _ => c :: replaceDottedF el elnew fuel cs
    else c :: replaceDottedF el elnew fuel cs

/-- Substitution of the dotted pass over a whole expression. -/
def replaceDotted (el elnew s : List Char) : List Char := replaceDottedF el elnew s.length s

/-- Dotted-attribute pass. -/
def dottedPass (cat : Catalog) (suff : List Char) (s : List Char) : List Char :=
  (dottedFindall s).foldl
    (fun e el => if isElemL cat el then replaceDotted el (el ++ suff) e else e) s

/-- Translation of `fix_expression`: the five passes in source order. -/
def fixExprL (cat : Catalog) (newname : List Char) (expression suff : List Char) : List Char :=
  dottedPass cat suff
    (nestedPass cat suff
      (parenPass cat suff
        (bracketPass cat suff
          (cnPass newname expression))))

/-- String-level wrapper for `fix_expression`. -/
def fix_expression (cat : Catalog) (newname : String) (expression suff : String) : String :=
  String.mk (fixExprL cat newname.data expression.data suff.data)

/-! ## Numeric-literal test `is_float` (MEC.py lines 32-37)

`is_float` asks whether Python `float()` accepts the string: optional
surrounding whitespace and sign, then `inf`/`infinity`/`nan` in any
case, or a decimal mantissa with optional exponent, with single
underscores allowed between digits. -/

/-- Consume a run of `( digit | underscore digit )*` after an initial
digit; an underscore not followed by a digit is left unconsumed. -/
def digitsRest : List Char → List Char
  | [] => []
  | '_' :: rest =>
    match rest with
    | d :: rest2 => if d.isDigit then digitsRest rest2 else '_' :: rest
    | [] => ['_']
  | d :: rest => if d.isDigit then digitsRest rest else d :: rest

/-- Parse a digit group (digit first, single underscores between
digits); returns the unconsumed remainder. -/
def digitsU : List Char → Option (List Char)
  | [] => none
  | c :: cs => if c.isDigit then some (digitsRest cs) else none

/-- Parse the mantissa: digits, digits-dot, digits-dot-digits, or
dot-digits. -/
def mantissa (l : List Char) : Option (List Char) :=
  match digitsU l with
  | some rest =>
    match rest with
    | '.' :: r2 =>
      match digitsU r2 with
      | some r3 => some r3
      | none => some r2
    | _ => some rest
  | none =>
    match l with
    | '.' :: r2 => digitsU r2
    | _ => none

/-- Parse an optional exponent `e`/`E`, optional sign, digit group. -/
def expPart (l : List Char) : Option (List Char) :=
  match l with
  | e :: r =>
    if e = 'e' ∨ e = 'E' then
      match r with
      | s :: r2 => if s = '+' ∨ s = '-' then digitsU r2 else digitsU r
      | [] => none
    else none
  | [] => none

/-- Strip leading and trailing Python whitespace. -/
def trimWS (l : List Char) : List Char :=
  (((l.dropWhile isPyWS).reverse).dropWhile isPyWS).reverse

/-- Translation of `is_float`: true iff Python `float()` would accept
the string. -/
def is_float (s : String) : Bool :=
  let l1 := trimWS s.data
  let l2 :=
    match l1 with
    | c :: cs => if c = '+' ∨ c = '-' then cs else l1
    | [] => l1
  if l2 = [] then false
  else
    let low := l2.map Char.toLower
    if low = ("inf").data ∨ low = ("infinity").data ∨ low = ("nan").data then true
    else
      match mantissa l2 with
      | some rest =>
        match expPart rest with
        | some r2 => r2 = []
        | none => rest = []
      | none => false

/-! ## Reaction scheme rewriting (MEC.py lines 364-412)

The scheme is split on semicolons; each segment is tokenized by
`shlex.split(sub, posix=False)` (whitespace split, a token that starts
with a quote runs to the matching quote and is emitted whole); segment 0
is rebuilt with operators and numeric literals untouched, quoted tokens
suffixed before their closing quote, bare tokens suffixed directly;
segment 1 (modifiers), when present, is rebuilt with only the
quoted/bare rules. -/

/-- Python `str.split` on a separator: keeps empty pieces, never
returns an empty list. -/
def splitSemi : List Char → List (List Char)
  | [] => [[]]
  | c :: cs =>
    if c = ';' then [] :: splitSemi cs
    else
      match splitSemi cs with
      | h :: t => (c :: h) :: t
      | [] => [[c]]

/-- Scan to the first occurrence of the quote character `q`, returning
the content before it and the remainder after it. -/
def takeUntil (q : Char) : List Char → Option (List Char × List Char)
  | [] => none
  | c :: cs =>
    if c = q then some ([], cs)
    else
      match takeUntil q cs with
      | some pr => some (c :: pr.1, pr.2)
      | none => none

/-- Non-posix `shlex` tokenization with whitespace splitting: skip
whitespace; a token starting with a quote runs to the matching quote
(quotes kept) and is emitted immediately; any other token is a maximal
run of non-whitespace characters.  `none` models the `ValueError`
raised on an unclosed quotation. -/
def shlexTokensF : Nat → List Char → Option (List (List Char))
  | _, [] => some []
  | 0, _ :: _ => none
  | fuel + 1, c :: cs =>
    if isShlexWS c then shlexTokensF fuel cs
    else if c = '"' ∨ c = squote then
      match takeUntil c cs with
      | some pr =>
        match shlexTokensF fuel pr.2 with
        | some ts => some ((c :: pr.1 ++ [c]) :: ts)
        | none => none
      | none => none
    else
      let w := (c :: cs).takeWhile (fun x => !(isShlexWS x))
      match shlexTokensF fuel ((c :: cs).dropWhile (fun x => !(isShlexWS x))) with
      | some ts => some (w :: ts)
      | none => none

/-- Tokenizer entry point. -/
def shlexTokens (l : List Char) : Option (List (List Char)) := shlexTokensF l.length l

/-- Does `re.match` of pattern quote-dotplus-quote succeed on the token:
first character a double quote, and a later double quote with at least
one character (no newline) in between. -/
def quotedMatch (t : String) : Bool :=
  match t.data with
  | c :: rest =>
    c = '"' &&
      (match rest with
       | [] => false
       | c0 :: cs =>
        if c0 = Char.ofNat 10 then false
        else
          (cs.takeWhile (fun x => x ≠ Char.ofNat 10)).contains '"')
  | [] => false

/-- Greedy group of the substitution pattern quote-group-quote: the
longest newline-free nonempty content closed by a later double quote. -/
def greedyQuote (rest : List Char) : Option (List Char × List Char) :=
  ((candSplits '"' rest).filter (fun pq => pq.1 ≠ [])).getLast?

/-- Substitution `re.sub` of quote-group-quote by quote-group-suffix-
quote, applied to all matches left to right. -/
def quoteSubAllF (suff : List Char) : Nat → List Char → List Char
  | _, [] => []
  | 0, s => s
  | fuel + 1, c :: cs =>
    if c = '"' then
      match greedyQuote cs with
      | some pr => '"' :: (pr.1 ++ suff ++ '"' :: quoteSubAllF suff fuel pr.2)
      | none => c :: quoteSubAllF suff fuel cs
    else c :: quoteSubAllF suff fuel cs

/-- Entry point of the quoted-token substitution. -/
def quoteSubAll (suff t : List Char) : List Char := quoteSubAllF suff t.length t

/-- Per-token rule of the stoichiometry segment (segment 0): operators
and numeric literals pass through; quoted tokens get the suffix before
the closing quote; bare tokens get the suffix appended; a trailing
space is added as in the source's string building. -/
def fixToken0 (t apdx : String) : String :=
  if t = "=" ∨ t = "->" ∨ t = "+" ∨ is_float t = true ∨ t = "*" then t ++ " "
  else if quotedMatch t then String.mk (quoteSubAll apdx.data t.data) ++ " "
  else t ++ apdx ++ " "

/-- Per-token rule of the modifier segment (segment 1): only the
quoted/bare distinction, no operator or numeric exemption. -/
def fixTokenMod (t apdx : String) : String :=
  if quotedMatch t then String.mk (quoteSubAll apdx.data t.data) ++ " "
  else t ++ apdx ++ " "

/-- Translation of the reaction-scheme rebuild: split on `;`, tokenize
every segment, rebuild segment 0 token by token, and when a second
segment exists, drop the trailing space, add `"; "` and rebuild the
modifier tokens.  `none` models the tokenizer's `ValueError`. -/
def rewrite_scheme (scheme apdx : String) : Option String :=
  match (splitSemi scheme.data).mapM shlexTokens with
  | none => none
  | some tok2 =>
    match tok2 with
    | [] => none
    | t0 :: restSegs =>
      let rs := t0.foldl (fun racc t => racc ++ (fixToken0 (String.mk t) apdx).data) []
      match restSegs with
      | [] => some (String.mk rs)
      | t1 :: _ =>
        let rs2 := rs.dropLast ++ ("; ").data
        some (String.mk
          (t1.foldl (fun racc t => racc ++ (fixTokenMod (String.mk t) apdx).data) rs2))

/-- Values of a reaction's parameter mapping: a single name or a list
of names. -/
inductive MapVal where
  | str : String → MapVal
  | lst : List String → MapVal
deriving DecidableEq

/-- Quoted/bare rule applied to one mapping name (no trailing space). -/
def fixMapStr (t apdx : String) : String :=
  if quotedMatch t then String.mk (quoteSubAll apdx.data t.data) else t ++ apdx

/-- Translation of the mapping fix-up loop: every string value, single
or inside a list, gets the identical quoted/bare rule. -/
def rewrite_mapping (m : List (String × MapVal)) (apdx : String) : List (String × MapVal) :=
  m.map fun kv =>
    (kv.1,
      match kv.2 with
      | MapVal.str t => MapVal.str (fixMapStr t apdx)
      | MapVal.lst l => MapVal.lst (l.map fun k2 => fixMapStr k2 apdx))

/-! ## Grid iteration and replica suffixes (MEC.py lines 333-339)

The main loop iterates rows then columns with a running cell counter
`i`; the suffix is the sequential `_i+1` for linear arrangements and
`_r+1,c+1` for true grids. -/

/-- Suffix of one grid cell, from the counter and the row/column. -/
def suffixCell (gridr gridc i r c : Nat) : String :=
  if gridr = 1 ∨ gridc = 1 then "_" ++ toString (i + 1)
  else "_" ++ toString (r + 1) ++ "," ++ toString (c + 1)

/-- The suffixes in the main loop's iteration order, produced by the
same double loop with a running counter. -/
def suffixes (gridr gridc : Nat) : List String :=
  ((List.range gridr).foldl
    (fun (st : List String × Nat) r =>
      (List.range gridc).foldl
        (fun (st2 : List String × Nat) c =>
          (st2.1 ++ [suffixCell gridr gridc st2.2 r c], st2.2 + 1)) st)
    ([], 0)).1

/-! ## Command surface, output filename (MEC.py lines 99-103, 150-172, 290) -/

/-- Translation of `check_positive`: an argparse type-checker that
rejects non-positive integers. -/
def check_positive (value : Int) : Except String Int :=
  if value ≤ 0 then Except.error (toString value ++ " is an invalid negative value")
  else Except.ok value

/-- Last index at which a character occurs. -/
def lastIdx (ch : Char) (l : List Char) : Option Nat :=
  (((l.enum.filter fun pr => pr.2 = ch).map fun pr => pr.1)).getLast?

/-- Translation of `os.path.splitext` for posix paths: split at the
last dot of the final path component, unless the component consists of
leading dots only. -/
def splitext (p : String) : String × String :=
  let l := p.data
  let sepIdx : Int :=
    match lastIdx '/' l with
    | some n => (n : Int)
    | none => -1
  match lastIdx '.' l with
  | some dotN =>
    if sepIdx < (dotN : Int) then
      let fnStart := (sepIdx + 1).toNat
      let mid := (l.drop fnStart).take (dotN - fnStart)
      if mid.any (fun c => c ≠ '.') then
        (String.mk (l.take dotN), String.mk (l.drop dotN))
      else (p, "")
    else (p, "")
  | none => (p, "")

/-- The filename suffix from lines 160-172: the single count for linear
arrangements, `_RxC` for true grids. -/
def fsuff (gridr gridc : Nat) : String :=
  if gridr = 1 then "_" ++ toString gridc
  else if gridc = 1 then "_" ++ toString gridr
  else "_" ++ toString gridr ++ "x" ++ toString gridc

/-- The primary replica suffix from lines 160-172. -/
def apdx1 (gridr gridc : Nat) : String :=
  if gridr = 1 then "_1"
  else if gridc = 1 then "_1"
  else "_1,1"

/-- Translation of line 290: the new model's filename is the base of
the input filename, the grid suffix, and the literal extension `.cps`. -/
def newfilename (seedmodelfile : String) (gridr gridc : Nat) : String :=
  (splitext seedmodelfile).1 ++ fsuff gridr gridc ++ ".cps"

/-- Outcome of the startup phase (argument checking and the `nmodels`
sanity check) before any model is loaded or built. -/
inductive StartupResult where
  | argError : String → StartupResult
  | cleanExit : StartupResult
  | proceed : String → StartupResult
deriving DecidableEq

/-- The startup control flow: both grid dimensions go through
`check_positive`; a product of one prints a message and exits cleanly
before anything is loaded, built or written; otherwise the run proceeds
towards the output file. -/
def startup (filename : String) (rows columns : Int) : StartupResult :=
  match check_positive rows with
  | Except.error m => StartupResult.argError m
  | Except.ok r =>
    match check_positive columns with
    | Except.error m => StartupResult.argError m
    | Except.ok c =>
      if r * c = 1 then StartupResult.cleanExit
      else StartupResult.proceed (newfilename filename r.toNat c.toNat)

/-! ## Event processing (MEC.py lines 455-473 and 488-514)

Inside the main loop each event whose trigger is changed by rewriting
is emitted for the current cell; the others are collected into a
`timeonlyevents` list (re-initialized every cell, so the list left over
is the last cell's).  After the loop each time-only event is emitted
once: trigger untouched, delay and priority rewritten with the primary
suffix, and each assignment duplicated over the whole grid. -/

/-- The event data carried through the pipeline. -/
structure MEvent where
  name : String
  trigger : String
  delay : String
  priority : String
  assignments : List (String × String)
  persistent : Bool
  fire_at_initial_time : Bool
  delay_calculation : Bool
deriving DecidableEq

/-- The event added for one cell when its trigger was changed by
rewriting (lines 462-469). -/
def percellEvent (cat : Catalog) (nn : String) (ev : MEvent) (apdx : String) : MEvent :=
  { name := ev.name ++ apdx
    trigger := fix_expression cat nn ev.trigger apdx
    delay := fix_expression cat nn ev.delay apdx
    priority := fix_expression cat nn ev.priority apdx
    assignments := ev.assignments.map fun a =>
      (fix_expression cat nn a.1 apdx, fix_expression cat nn a.2 apdx)
    persistent := ev.persistent
    fire_at_initial_time := ev.fire_at_initial_time
    delay_calculation := ev.delay_calculation }

/-- One cell's pass over the event list: emitted events on the left,
the cell's `timeonlyevents` list on the right. -/
def cellEvents (cat : Catalog) (nn : String) (events : List MEvent) (apdx : String) :
    List MEvent × List MEvent :=
  events.foldl
    (fun acc ev =>
      if fix_expression cat nn ev.trigger apdx = ev.trigger then (acc.1, acc.2 ++ [ev])
      else (acc.1 ++ [percellEvent cat nn ev apdx], acc.2))
    ([], [])

/-- The event added by the post-pass for a time-only event (lines
490-514): original name and trigger, delay and priority rewritten with
the primary suffix, each assignment expanded over the whole grid in the
main loop's order. -/
def postPassEvent (cat : Catalog) (nn : String) (gridr gridc : Nat) (ev : MEvent) : MEvent :=
  { name := ev.name
    trigger := ev.trigger
    delay := fix_expression cat nn ev.delay (apdx1 gridr gridc)
    priority := fix_expression cat nn ev.priority (apdx1 gridr gridc)
    assignments := ev.assignments.flatMap fun a =>
      (suffixes gridr gridc).map fun s =>
        (fix_expression cat nn a.1 s, fix_expression cat nn a.2 s)
    persistent := ev.persistent
    fire_at_initial_time := ev.fire_at_initial_time
    delay_calculation := ev.delay_calculation }

/-- The full sequence of events added to the new model: the per-cell
events of the main loop in order, then the post-pass events for the
time-only list left over from the last cell. -/
def buildEvents (cat : Catalog) (nn : String) (gridr gridc : Nat) (events : List MEvent) :
    List MEvent :=
  let sl := suffixes gridr gridc
  let emitted := sl.flatMap fun s => (cellEvents cat nn events s).1
  let timeonly :=
    match sl.getLast? with
    | some s => (cellEvents cat nn events s).2
    | none => []
  emitted ++ timeonly.map (postPassEvent cat nn gridr gridc)

/-! ## Helper lemmas -/

/-- Rebuilding a string from its character list is the identity. -/
theorem mk_data (s : String) : String.mk s.data = s := rfl

/-- A substitution fold over candidates none of which classify is the
identity. -/
theorem foldl_sub_id (cat : Catalog) (q : List Char → List Char → List Char) :
    ∀ (l : List (List Char)) (s : List Char),
      (∀ el ∈ l, isElemL cat el = false) →
      l.foldl (fun e el => if isElemL cat el then q el e else e) s = s := by
  intro l
  induction l with
  | nil => intro s _; rfl
  | cons hd tl ih =>
    intro s h
    have hhd : isElemL cat hd = false := h hd (List.mem_cons_self hd tl)
    simp only [List.foldl_cons, hhd, Bool.false_eq_true, if_false]
    exact ih s fun el hel => h el (List.mem_cons_of_mem hd hel)

/-- The whole rewriter is the identity when no pass fires: the
expression does not start with a model-qualified path and no candidate
of any of the four scans classifies as an element. -/
theorem fixExprL_noRef (cat : Catalog) (nn E S : List Char)
    (hcn : cnPre.isPrefixOf E = false)
    (hb : ∀ el ∈ bracketFindall E, isElemL cat el = false)
    (hp : ∀ el ∈ parenFindall E, isElemL cat el = false)
    (hn : ∀ el ∈ nestedFindall E, isElemL cat el = false)
    (hd : ∀ el ∈ dottedFindall E, isElemL cat el = false) :
    fixExprL cat nn E S = E := by
  have h1 : cnPass nn E = E := by
    simp only [cnPass]
    rw [if_neg]
    simp [hcn]
  have h2 : bracketPass cat S E = E := by
    simp only [bracketPass]
    exact foldl_sub_id cat _ _ E hb
  have h3 : parenPass cat S E = E := by
    simp only [parenPass]
    exact foldl_sub_id cat _ _ E hp
  have h4 : nestedPass cat S E = E := by
    simp only [nestedPass]
    exact foldl_sub_id cat _ _ E hn
  have h5 : dottedPass cat S E = E := by
    simp only [dottedPass]
    exact foldl_sub_id cat _ _ E hd
  simp only [fixExprL, h1, h2, h3, h4, h5]

/-- String-level version of the no-reference identity. -/
theorem fix_expression_noRef (cat : Catalog) (nn E S : String)
    (hcn : cnPre.isPrefixOf E.data = false)
    (hb : ∀ el ∈ bracketFindall E.data, isElemL cat el = false)
    (hp : ∀ el ∈ parenFindall E.data, isElemL cat el = false)
    (hn : ∀ el ∈ nestedFindall E.data, isElemL cat el = false)
    (hd : ∀ el ∈ dottedFindall E.data, isElemL cat el = false) :
    fix_expression cat nn E S = E := by
  unfold fix_expression
  rw [fixExprL_noRef cat nn.data E.data S.data hcn hb hp hn hd, mk_data]

/-- Closed form of the inner (column) fold of the suffix loop. -/
theorem innerFold (R C r : Nat) :
    ∀ (n : Nat) (acc : List String) (i : Nat),
      (List.range n).foldl
        (fun (st2 : List String × Nat) c =>
          (st2.1 ++ [suffixCell R C st2.2 r c], st2.2 + 1)) (acc, i)
      = (acc ++ (List.range n).map (fun c => suffixCell R C (i + c) r c), i + n) := by
  intro n
  induction n with
  | zero => intro acc i; simp
  | succ m ih =>
    intro acc i
    rw [List.range_succ, List.foldl_append, ih acc i]
    simp [List.range_succ, List.append_assoc]
    omega

/-- Closed form of the outer (row) fold of the suffix loop. -/
theorem outerFold (R C : Nat) :
    ∀ (n : Nat) (acc : List String) (i : Nat),
      (List.range n).foldl
        (fun (st : List String × Nat) r =>
          (List.range C).foldl
            (fun (st2 : List String × Nat) c =>
              (st2.1 ++ [suffixCell R C st2.2 r c], st2.2 + 1)) st) (acc, i)
      = (acc ++ (List.range n).flatMap
            (fun r => (List.range C).map (fun c => suffixCell R C (i + r * C + c) r c)),
         i + n * C) := by
  intro n
  induction n with
  | zero => intro acc i; simp
  | succ m ih =>
    intro acc i
    rw [List.range_succ, List.foldl_append, ih acc i]
    simp only [List.foldl_cons, List.foldl_nil]
    rw [innerFold]
    simp only [List.flatMap_append, List.flatMap_cons, List.flatMap_nil, List.append_nil,
      List.append_assoc, Prod.mk.injEq]
    constructor
    · trivial
    · ring

/-- The suffix list in closed form: rows outside, columns inside, with
the running counter equal to `r * C + c`. -/
theorem suffixes_eq (R C : Nat) :
    suffixes R C
      = (List.range R).flatMap
          (fun r => (List.range C).map (fun c => suffixCell R C (r * C + c) r c)) := by
  unfold suffixes
  rw [outerFold R C R [] 0]
  simp

/-- Collapsing a row-major double enumeration into a single range. -/
theorem flatMap_linear {α : Type} (f : Nat → α) :
    ∀ (R C : Nat),
      (List.range R).flatMap (fun r => (List.range C).map (fun c => f (r * C + c)))
      = (List.range (R * C)).map f := by
  intro R
  induction R with
  | zero => intro C; simp
  | succ m ih =>
    intro C
    rw [List.range_succ, List.flatMap_append, ih C]
    have h2 : (m + 1) * C = m * C + C := by ring
    rw [h2, List.range_add, List.map_append, List.map_map]
    simp only [List.flatMap_cons, List.flatMap_nil, List.append_nil]
    congr 1

/-- Lengths of flat maps with constant block length. -/
theorem flatMap_const_length {α β : Type} (l : List α) (f : α → List β) (k : Nat)
    (h : ∀ a ∈ l, (f a).length = k) : (l.flatMap f).length = l.length * k := by
  induction l with
  | nil => simp
  | cons hd tl ih =>
    simp only [List.flatMap_cons, List.length_append, List.length_cons]
    rw [h hd (List.mem_cons_self hd tl), ih fun a ha => h a (List.mem_cons_of_mem hd ha)]
    ring

/-- The suffix list always has one entry per grid cell. -/
theorem suffixes_length (R C : Nat) : (suffixes R C).length = R * C := by
  rw [suffixes_eq]
  rw [flatMap_const_length _ _ C (by intro a _; simp)]
  simp

/-- A flat map all of whose blocks are empty is empty. -/
theorem flatMap_nil_of {α β : Type} (l : List α) (f : α → List β)
    (h : ∀ a ∈ l, f a = []) : l.flatMap f = [] := by
  induction l with
  | nil => rfl
  | cons hd tl ih =>
    simp only [List.flatMap_cons, h hd (List.mem_cons_self hd tl), List.nil_append]
    exact ih fun a ha => h a (List.mem_cons_of_mem hd ha)

/-- Pointwise equal block functions give equal flat maps. -/
theorem flatMap_congr_of {α β : Type} (l : List α) (f g : α → List β)
    (h : ∀ a ∈ l, f a = g a) : l.flatMap f = l.flatMap g := by
  induction l with
  | nil => rfl
  | cons hd tl ih =>
    simp only [List.flatMap_cons, h hd (List.mem_cons_self hd tl)]
    rw [ih fun a ha => h a (List.mem_cons_of_mem hd ha)]

/-- Flat-mapping singletons is mapping. -/
theorem flatMap_singleton_eq_map {α β : Type} (l : List α) (f : α → β) :
    l.flatMap (fun a => [f a]) = l.map f := by
  induction l with
  | nil => rfl
  | cons hd tl ih => simp only [List.flatMap_cons, List.map_cons, List.singleton_append, ih]

/-- One cell's pass over a single event, time-only case. -/
theorem cellEvents_single_timeonly (cat : Catalog) (nn : String) (e : MEvent) (s : String)
    (h : fix_expression cat nn e.trigger s = e.trigger) :
    cellEvents cat nn [e] s = ([], [e]) := by
  simp [cellEvents, h]

/-- One cell's pass over a single event, changed-trigger case. -/
theorem cellEvents_single_changed (cat : Catalog) (nn : String) (e : MEvent) (s : String)
    (h : fix_expression cat nn e.trigger s ≠ e.trigger) :
    cellEvents cat nn [e] s = ([percellEvent cat nn e s], []) := by
  simp [cellEvents, h]

/-- A successful quote scan accounts for every character. -/
theorem takeUntil_some_length (q : Char) :
    ∀ (l : List Char) (pr : List Char × List Char),
      takeUntil q l = some pr → l.length = pr.1.length + 1 + pr.2.length := by
  intro l
  induction l with
  | nil => intro pr h; simp [takeUntil] at h
  | cons c cs ih =>
    intro pr h
    simp only [takeUntil] at h
    by_cases hc : c = q
    · rw [if_pos hc] at h
      cases h
      simp
      omega
    · rw [if_neg hc] at h
      split at h
      · rename_i pr2 heq
        cases h
        have := ih pr2 heq
        simp
        omega
      · cases h

/-- Scanning for the closing quote across content that does not contain
it finds exactly the closing quote. -/
theorem takeUntil_append (q : Char) :
    ∀ (content rest : List Char), q ∉ content →
      takeUntil q (content ++ q :: rest) = some (content, rest) := by
  intro content
  induction content with
  | nil => intro rest _; simp [takeUntil]
  | cons c cs ih =>
    intro rest h
    have hc : ¬ (c = q) := fun hcq => h (by rw [hcq]; exact List.mem_cons_self q cs)
    simp only [List.cons_append, takeUntil, if_neg hc, List.append_eq]
    rw [ih rest fun hm => h (List.mem_cons_of_mem c hm)]

/-- The tokenizer does not depend on the fuel once it covers the input
length. -/
theorem shlexTokensF_fuelInv :
    ∀ (f1 : Nat) (l : List Char) (f2 : Nat),
      l.length ≤ f1 → l.length ≤ f2 → shlexTokensF f1 l = shlexTokensF f2 l := by
  intro f1
  induction f1 with
  | zero =>
    intro l f2 h1 _
    have hl : l = [] := List.eq_nil_of_length_eq_zero (Nat.le_zero.mp h1)
    subst hl
    cases f2 <;> rfl
  | succ m ih =>
    intro l f2 h1 h2
    cases l with
    | nil => cases f2 <;> rfl
    | cons c cs =>
      have hcs1 : cs.length ≤ m := by simp at h1; omega
      cases f2 with
      | zero => simp at h2
      | succ k =>
        have hcs2 : cs.length ≤ k := by simp at h2; omega
        simp only [shlexTokensF]
        by_cases hws : isShlexWS c
        · simp only [hws, if_true]
          exact ih cs k hcs1 hcs2
        · simp only [hws, Bool.false_eq_true, if_false]
          by_cases hq : c = '"' ∨ c = squote
          · simp only [hq, if_true]
            cases htu : takeUntil c cs with
            | none => rfl
            | some pr =>
              have hlen := takeUntil_some_length c cs pr htu
              have hp1 : pr.2.length ≤ m := by omega
              have hp2 : pr.2.length ≤ k := by omega
              dsimp only
              rw [ih pr.2 k hp1 hp2]
          · simp only [hq, if_false]
            have hdrop : (c :: cs).dropWhile (fun x => !(isShlexWS x))
                = cs.dropWhile (fun x => !(isShlexWS x)) := by
              rw [List.dropWhile_cons]
              simp [hws]
            have hd : ((c :: cs).dropWhile fun x => !(isShlexWS x)).length ≤ cs.length := by
              rw [hdrop]
              exact List.Sublist.length_le (List.dropWhile_sublist _)
            rw [ih _ k (le_trans hd hcs1) (le_trans hd hcs2)]

/-- Quote-atomicity of the tokenizer: a token opened by a double quote
runs to the matching quote, whatever it contains, and is emitted as one
indivisible unit. -/
theorem shlexTokens_quoted (content rest : List Char) (h : '"' ∉ content) :
    shlexTokens ('"' :: content ++ '"' :: rest)
      = (shlexTokens rest).map (fun ts => ('"' :: content ++ ['"']) :: ts) := by
  have hws : isShlexWS '"' = false := by decide
  have hlen : ('"' :: content ++ '"' :: rest).length
      = (content.length + 1 + rest.length) + 1 := by
    simp
    omega
  unfold shlexTokens
  rw [hlen]
  simp only [shlexTokensF, List.cons_append, List.append_eq]
  rw [if_neg (by simp [hws])]
  rw [if_pos (Or.inl trivial)]
  rw [takeUntil_append '"' content rest h]
  dsimp only
  have hfuel : shlexTokensF (content.length + 1 + rest.length) rest
      = shlexTokensF rest.length rest :=
    shlexTokensF_fuelInv _ rest _ (by omega) (le_refl _)
  rw [hfuel]
  cases shlexTokensF rest.length rest with
  | none => rfl
  | some ts => rfl

/-- On a well-formed quoted body followed by its closing quote, the
split enumeration finds exactly the closing quote. -/
theorem candSplits_closed (body : List Char)
    (hq : '"' ∉ body) (hn : Char.ofNat 10 ∉ body) :
    candSplits '"' (body ++ ['"']) = [(body, [])] := by
  induction body with
  | nil => simp [candSplits]
  | cons c cs ih =>
    have hc : ¬ (c = '"') := fun hce => hq (by rw [hce]; exact List.mem_cons_self _ _)
    have hcn : ¬ (c = Char.ofNat 10) := fun hce => hn (by rw [hce]; exact List.mem_cons_self _ _)
    simp only [List.cons_append, candSplits, if_neg hc, if_neg hcn, List.append_eq]
    rw [ih (fun hm => hq (List.mem_cons_of_mem c hm)) (fun hm => hn (List.mem_cons_of_mem c hm))]
    simp

/-- The greedy group of the quoted-token substitution on a well-formed
quoted token is the whole body. -/
theorem greedyQuote_closed (body : List Char)
    (hne : body ≠ []) (hq : '"' ∉ body) (hn : Char.ofNat 10 ∉ body) :
    greedyQuote (body ++ ['"']) = some (body, []) := by
  unfold greedyQuote
  rw [candSplits_closed body hq hn]
  simp [hne]

/-- The quoted-token substitution inserts the suffix immediately before
the closing quote. -/
theorem quoteSubAll_closed (S body : List Char)
    (hne : body ≠ []) (hq : '"' ∉ body) (hn : Char.ofNat 10 ∉ body) :
    quoteSubAll S ('"' :: body ++ ['"']) = '"' :: body ++ S ++ ['"'] := by
  unfold quoteSubAll
  have hlen : ('"' :: body ++ ['"']).length = (body.length + 1) + 1 := by simp
  rw [hlen]
  simp only [quoteSubAllF, List.cons_append, if_pos rfl, List.append_eq]
  rw [greedyQuote_closed body hne hq hn]
  dsimp only
  rw [show quoteSubAllF S (body.length + 1) ([] : List Char) = [] from rfl]
  simp

/-- The quoted-token test succeeds on a well-formed quoted token. -/
theorem quotedMatch_closed (body : List Char)
    (hne : body ≠ []) (hn : Char.ofNat 10 ∉ body) :
    quotedMatch (String.mk ('"' :: body ++ ['"'])) = true := by
  cases body with
  | nil => cases hne rfl
  | cons b0 bs =>
    have hb0 : ¬ (b0 = Char.ofNat 10) :=
      fun hce => hn (by rw [hce]; exact List.mem_cons_self _ _)
    have hbs : ∀ x ∈ bs, ¬ (x = Char.ofNat 10) :=
      fun x hx hxe => hn (by rw [← hxe]; exact List.mem_cons_of_mem b0 hx)
    simp only [quotedMatch, List.cons_append]
    rw [if_neg hb0]
    have htw : (bs ++ ['"']).takeWhile (fun x => x ≠ Char.ofNat 10) = bs ++ ['"'] := by
      rw [List.takeWhile_eq_self_iff]
      intro x hx
      rcases List.mem_append.mp hx with hx1 | hx2
      · simpa using hbs x hx1
      · simp at hx2
        rw [hx2]
        decide
    rw [htw]
    simp

/-! ## Claim theorems -/

/-- C5: `is_element(candidate)` returns true if and only if the
candidate exactly matches (case-sensitively, no partial match) a name
in a non-empty catalog of quantities, compartments, species, or
reactions; empty catalogs never contribute. -/
theorem c5_is_element_iff (cat : Catalog) (cand : String) :
    is_element cat cand = true ↔
      ((cat.mparams ≠ [] ∧ cand ∈ cat.mparams) ∨
       (cat.mcomps ≠ [] ∧ cand ∈ cat.mcomps) ∨
       (cat.mspecs ≠ [] ∧ cand ∈ cat.mspecs) ∨
       (cat.mreacts ≠ [] ∧ cand ∈ cat.mreacts)) := by
  simp only [is_element, List.length_pos]
  split_ifs with h1 h2 h3 h4 <;> simp_all

/-- C7: with both dimensions positive and `rows*columns == 1`, the
startup phase ends in a clean exit before anything is loaded, built or
written; a non-positive dimension is rejected as an invalid argument. -/
theorem c7_degenerate_grid (f : String) (r c : Int) :
    (0 < r → 0 < c → r * c = 1 → startup f r c = StartupResult.cleanExit) ∧
    (r ≤ 0 ∨ c ≤ 0 → ∃ m, startup f r c = StartupResult.argError m) := by
  constructor
  · intro hr hc h1
    simp only [startup, check_positive, if_neg (not_le.mpr hr), if_neg (not_le.mpr hc)]
    rw [if_pos h1]
  · intro h
    by_cases hr : r ≤ 0
    · refine ⟨toString r ++ " is an invalid negative value", ?_⟩
      simp only [startup, check_positive, if_pos hr]
    · have hc : c ≤ 0 := by
        rcases h with h | h
        · exact absurd h hr
        · exact h
      refine ⟨toString c ++ " is an invalid negative value", ?_⟩
      simp only [startup, check_positive, if_neg hr, if_pos hc]

/-- C7 witness: the degenerate 1x1 request exits cleanly, and a zero
row count is rejected. -/
theorem c7_witness :
    startup "model.cps" 1 1 = StartupResult.cleanExit ∧
    (∃ m, startup "model.cps" 0 2 = StartupResult.argError m) :=
  ⟨(c7_degenerate_grid "model.cps" 1 1).1 (by decide) (by decide) (by decide),
   (c7_degenerate_grid "model.cps" 0 2).2 (Or.inl (by decide))⟩

/-- C8 counterexample: for input `m.xml` with rows=1, columns=5 the
output name is `m_5.cps`, not the base plus `_rows` plus the original
extension as the claim states. -/
theorem c8_counterexample :
    splitext "m.xml" = ("m", ".xml") ∧
    newfilename "m.xml" 1 5 = "m_5.cps" ∧
    newfilename "m.xml" 1 5 ≠ (splitext "m.xml").1 ++ "_1" ++ (splitext "m.xml").2 := by
  decide

/-- C8 (amended): the output filename is deterministic: the input base
name, then `_` and the replica count `rows*columns` when the
arrangement is linear, or `_rowsxcolumns` for a true grid, then the
literal extension `.cps`. -/
theorem c8_newfilename (f : String) (R C : Nat) (hR : 1 ≤ R) (hC : 1 ≤ C) :
    newfilename f R C
      = (splitext f).1 ++
        (if R = 1 ∨ C = 1 then "_" ++ toString (R * C)
         else "_" ++ toString R ++ "x" ++ toString C) ++ ".cps" := by
  unfold newfilename fsuff
  by_cases h1 : R = 1
  · subst h1
    simp [Nat.one_mul]
  · by_cases h2 : C = 1
    · subst h2
      simp [h1, Nat.mul_one]
    · simp [h1, h2]

/-- C8 witness: a 2x1 request on `model.cps` produces the stated name. -/
theorem c8_witness :
    newfilename "model.cps" 2 1
      = (splitext "model.cps").1 ++
        (if 2 = 1 ∨ 1 = 1 then "_" ++ toString (2 * 1)
         else "_" ++ toString 2 ++ "x" ++ toString 1) ++ ".cps" :=
  c8_newfilename "model.cps" 2 1 (by decide) (by decide)

/-- C9: splitting a scheme on `;` can never produce zero segments
(Python `str.split` always returns at least one piece), and the empty
scheme flows through the rebuild with no error at all, yielding an
empty reaction string rather than the fatal validation error the claim
requires. -/
theorem c9_no_zero_segments :
    (∀ s : List Char, splitSemi s ≠ []) ∧ rewrite_scheme "" "_1" = some "" := by
  constructor
  · intro s
    induction s with
    | nil => simp [splitSemi]
    | cons c cs ih =>
      simp only [splitSemi]
      by_cases hc : c = ';'
      · simp [hc]
      · rw [if_neg hc]
        cases h : splitSemi cs with
        | nil => simp
        | cons hd tl => simp
  · decide

/-- C2: for a grid with positive dimensions the main loop generates
exactly `rows*columns` suffixes in row-major order: the sequential
1-based `_i` when either dimension is 1, else `_r,c`. -/
theorem c2_grid_suffixes (R C : Nat) (hR : 1 ≤ R) (hC : 1 ≤ C) (hRC : 1 < R * C) :
    (suffixes R C).length = R * C ∧
    (R = 1 ∨ C = 1 →
      suffixes R C = (List.range (R * C)).map fun i => "_" ++ toString (i + 1)) ∧
    (¬ (R = 1 ∨ C = 1) →
      suffixes R C
        = (List.range R).flatMap fun r =>
            (List.range C).map fun c =>
              "_" ++ toString (r + 1) ++ "," ++ toString (c + 1)) := by
  refine ⟨suffixes_length R C, ?_, ?_⟩
  · intro h
    rw [suffixes_eq]
    have step :
        (List.range R).flatMap
            (fun r => (List.range C).map fun c => suffixCell R C (r * C + c) r c)
          = (List.range R).flatMap
              (fun r => (List.range C).map fun c =>
                (fun i => "_" ++ toString (i + 1)) (r * C + c)) := by
      apply flatMap_congr_of
      intro r _
      apply List.map_congr_left
      intro c _
      simp [suffixCell, h]
    rw [step, flatMap_linear (fun i => "_" ++ toString (i + 1)) R C]
  · intro h
    rw [suffixes_eq]
    apply flatMap_congr_of
    intro r _
    apply List.map_congr_left
    intro c _
    simp [suffixCell, h]

/-- C2 witness: the 2x3 grid yields six suffixes in row-major order. -/
theorem c2_witness :
    (suffixes 2 3).length = 2 * 3 ∧
    suffixes 2 3
      = (List.range 2).flatMap fun r =>
          (List.range 3).map fun c => "_" ++ toString (r + 1) ++ "," ++ toString (c + 1) :=
  ⟨(c2_grid_suffixes 2 3 (by decide) (by decide) (by decide)).1,
   (c2_grid_suffixes 2 3 (by decide) (by decide) (by decide)).2.2 (by decide)⟩

/-- C1 counterexample: an expression with no bracketed, parenthesized,
nested or dotted candidate that classifies as an element (the catalog
is empty, and the model-name segment `Old` classifies as nothing) is
still changed, because the model-qualification pass rewrites
unconditionally. -/
theorem c1_counterexample :
    ((bracketFindall ("CN=Root,Model=Old,Reference=Time").data).all
        fun el => !(isElemL emptyCat el)) = true ∧
    ((parenFindall ("CN=Root,Model=Old,Reference=Time").data).all
        fun el => !(isElemL emptyCat el)) = true ∧
    ((nestedFindall ("CN=Root,Model=Old,Reference=Time").data).all
        fun el => !(isElemL emptyCat el)) = true ∧
    ((dottedFindall ("CN=Root,Model=Old,Reference=Time").data).all
        fun el => !(isElemL emptyCat el)) = true ∧
    isElemL emptyCat ("Old").data = false ∧
    fix_expression emptyCat "NEW" "CN=Root,Model=Old,Reference=Time" "_2"
      ≠ "CN=Root,Model=Old,Reference=Time" := by
  decide

/-- C1 (amended): when the expression does not begin with a
model-qualified path and no candidate of any scan classifies as an
element, `fix_expression` returns its input unchanged; unrecognized
tokens never cause an error. -/
theorem c1_no_match_passthrough (cat : Catalog) (nn E S : String)
    (hcn : cnPre.isPrefixOf E.data = false)
    (hb : ∀ el ∈ bracketFindall E.data, isElemL cat el = false)
    (hp : ∀ el ∈ parenFindall E.data, isElemL cat el = false)
    (hn : ∀ el ∈ nestedFindall E.data, isElemL cat el = false)
    (hd : ∀ el ∈ dottedFindall E.data, isElemL cat el = false) :
    fix_expression cat nn E S = E :=
  fix_expression_noRef cat nn E S hcn hb hp hn hd

/-- C1 witness: the spec's own example, `2*Time+1` with suffix `_2`
and no catalog entry for `Time`. -/
theorem c1_witness :
    fix_expression emptyCat "N" "2*Time+1" "_2" = "2*Time+1" :=
  c1_no_match_passthrough emptyCat "N" "2*Time+1" "_2"
    (by decide) (by decide) (by decide) (by decide) (by decide)

/-- C6 counterexample: with catalog species `A` and `A_1`, rewriting
`[A]` with suffix `_1` yields `[A_1]`, and a second application yields
`[A_1_1]`, so the rewriter is not idempotent. -/
theorem c6_counterexample :
    fix_expression ⟨[], [], ["A", "A_1"], []⟩ "N" "[A]" "_1" = "[A_1]" ∧
    fix_expression ⟨[], [], ["A", "A_1"], []⟩ "N" "[A_1]" "_1" = "[A_1_1]" ∧
    fix_expression ⟨[], [], ["A", "A_1"], []⟩ "N"
        (fix_expression ⟨[], [], ["A", "A_1"], []⟩ "N" "[A]" "_1") "_1"
      ≠ fix_expression ⟨[], [], ["A", "A_1"], []⟩ "N" "[A]" "_1" := by
  decide

/-- C6 (amended): re-applying the rewriter is a no-op whenever the
once-rewritten text has settled: it carries no model-qualification
prefix and none of its scan candidates classifies as an element (the
counterexample shows this fails when a suffixed name is itself a
catalog element). -/
theorem c6_idempotent_on_settled (cat : Catalog) (nn E S : String)
    (hcn : cnPre.isPrefixOf (fix_expression cat nn E S).data = false)
    (hb : ∀ el ∈ bracketFindall (fix_expression cat nn E S).data, isElemL cat el = false)
    (hp : ∀ el ∈ parenFindall (fix_expression cat nn E S).data, isElemL cat el = false)
    (hn : ∀ el ∈ nestedFindall (fix_expression cat nn E S).data, isElemL cat el = false)
    (hd : ∀ el ∈ dottedFindall (fix_expression cat nn E S).data, isElemL cat el = false) :
    fix_expression cat nn (fix_expression cat nn E S) S = fix_expression cat nn E S :=
  fix_expression_noRef cat nn (fix_expression cat nn E S) S hcn hb hp hn hd

/-- C6 witness: with the single catalog species `A`, `[A]` rewrites to
`[A_1]` and a second application leaves it unchanged. -/
theorem c6_witness :
    fix_expression ⟨[], [], ["A"], []⟩ "N"
        (fix_expression ⟨[], [], ["A"], []⟩ "N" "[A]" "_1") "_1"
      = fix_expression ⟨[], [], ["A"], []⟩ "N" "[A]" "_1" :=
  c6_idempotent_on_settled ⟨[], [], ["A"], []⟩ "N" "[A]" "_1"
    (by decide) (by decide) (by decide) (by decide) (by decide)

/-- C3 counterexample: in the modifier segment the numeric literal `2`
does not pass through unchanged, it is suffixed like a bare name, so
the per-token operator/numeric rule does not hold for every segment. -/
theorem c3_counterexample :
    is_float "2" = true ∧
    rewrite_scheme "A -> B; 2" "_1" = some "A_1 -> B_1; 2_1 " := by
  decide

/-- C3 (amended): tokenization is quote-aware (a token opened by a
double quote runs to the matching quote and is one indivisible unit);
in the stoichiometry segment operators and numeric literals pass
through unchanged, quoted tokens get the suffix just before the closing
quote, and bare tokens get it appended with no existence check; in the
modifier segment and in the mapping only the quoted/bare rules apply
(numeric-looking modifier tokens are suffixed too). -/
theorem c3_scheme_rules :
    (∀ (content rest : List Char), '"' ∉ content →
        shlexTokens ('"' :: content ++ '"' :: rest)
          = (shlexTokens rest).map fun ts => ('"' :: content ++ ['"']) :: ts) ∧
    (∀ (t S : String), t = "=" ∨ t = "->" ∨ t = "+" ∨ is_float t = true ∨ t = "*" →
        fixToken0 t S = t ++ " ") ∧
    (∀ (S : String) (body : List Char), body ≠ [] → '"' ∉ body → Char.ofNat 10 ∉ body →
        is_float (String.mk ('"' :: body ++ ['"'])) = false →
        fixToken0 (String.mk ('"' :: body ++ ['"'])) S
          = String.mk ('"' :: body ++ S.data ++ ['"']) ++ " ") ∧
    (∀ (t S : String), quotedMatch t = false →
        ¬ (t = "=" ∨ t = "->" ∨ t = "+" ∨ is_float t = true ∨ t = "*") →
        fixToken0 t S = t ++ S ++ " ") ∧
    (∀ (t S : String), quotedMatch t = false → fixTokenMod t S = t ++ S ++ " ") ∧
    (∀ (S : String) (body : List Char), body ≠ [] → '"' ∉ body → Char.ofNat 10 ∉ body →
        fixTokenMod (String.mk ('"' :: body ++ ['"'])) S
          = String.mk ('"' :: body ++ S.data ++ ['"']) ++ " ") ∧
    (∀ (t S : String), quotedMatch t = false → fixMapStr t S = t ++ S) ∧
    (∀ (S : String) (body : List Char), body ≠ [] → '"' ∉ body → Char.ofNat 10 ∉ body →
        fixMapStr (String.mk ('"' :: body ++ ['"'])) S
          = String.mk ('"' :: body ++ S.data ++ ['"'])) ∧
    rewrite_scheme "\"A B\" + C -> D" "_1" = some "\"A B_1\" + C_1 -> D_1 " := by
  have hquoted : ∀ (S : String) (body : List Char),
      body ≠ [] → '"' ∉ body → Char.ofNat 10 ∉ body →
      String.mk (quoteSubAll S.data ('"' :: body ++ ['"']))
        = String.mk ('"' :: body ++ S.data ++ ['"']) := by
    intro S body hne hq hn
    rw [quoteSubAll_closed S.data body hne hq hn]
  refine ⟨shlexTokens_quoted, ?_, ?_, ?_, ?_, ?_, ?_, ?_, by decide⟩
  · intro t S h
    simp only [fixToken0, if_pos h]
  · intro S body hne hq hn hfl
    have hop : ¬ (String.mk ('"' :: body ++ ['"']) = "=" ∨
        String.mk ('"' :: body ++ ['"']) = "->" ∨
        String.mk ('"' :: body ++ ['"']) = "+" ∨
        is_float (String.mk ('"' :: body ++ ['"'])) = true ∨
        String.mk ('"' :: body ++ ['"']) = "*") := by
      intro hcontra
      rcases hcontra with h | h | h | h | h
      · have := congrArg String.data h
        simp at this
      · have := congrArg String.data h
        simp at this
      · have := congrArg String.data h
        simp at this
      · rw [hfl] at h
        cases h
      · have := congrArg String.data h
        simp at this
    simp only [fixToken0, if_neg hop,
      if_pos (quotedMatch_closed body hne hn)]
    rw [hquoted S body hne hq hn]
  · intro t S hqm hop
    simp only [fixToken0, if_neg hop, hqm, Bool.false_eq_true, if_false]
  · intro t S hqm
    simp only [fixTokenMod, hqm, Bool.false_eq_true, if_false]
  · intro S body hne hq hn
    simp only [fixTokenMod, if_pos (quotedMatch_closed body hne hn)]
    rw [hquoted S body hne hq hn]
  · intro t S hqm
    simp only [fixMapStr, hqm, Bool.false_eq_true, if_false]
  · intro S body hne hq hn
    simp only [fixMapStr, if_pos (quotedMatch_closed body hne hn)]
    rw [hquoted S body hne hq hn]

/-- C3 witness: the rules applied at concrete tokens, including the
spec's quote-atomicity example token `"A B"`. -/
theorem c3_witness :
    shlexTokens ('"' :: ("A B").data ++ '"' :: ("+").data)
        = (shlexTokens ("+").data).map (fun ts => ('"' :: ("A B").data ++ ['"']) :: ts) ∧
    fixToken0 "+" "_1" = "+" ++ " " ∧
    fixToken0 (String.mk ('"' :: ("A B").data ++ ['"'])) "_1"
        = String.mk ('"' :: ("A B").data ++ ("_1").data ++ ['"']) ++ " " ∧
    fixToken0 "C" "_1" = "C" ++ "_1" ++ " " ∧
    fixTokenMod "M" "_1" = "M" ++ "_1" ++ " " ∧
    fixTokenMod (String.mk ('"' :: ("A B").data ++ ['"'])) "_1"
        = String.mk ('"' :: ("A B").data ++ ("_1").data ++ ['"']) ++ " " ∧
    fixMapStr "kp" "_1" = "kp" ++ "_1" ∧
    fixMapStr (String.mk ('"' :: ("A B").data ++ ['"'])) "_1"
        = String.mk ('"' :: ("A B").data ++ ("_1").data ++ ['"']) :=
  ⟨c3_scheme_rules.1 ("A B").data ("+").data (by decide),
   c3_scheme_rules.2.1 "+" "_1" (by decide),
   c3_scheme_rules.2.2.1 "_1" ("A B").data (by decide) (by decide) (by decide) (by decide),
   c3_scheme_rules.2.2.2.1 "C" "_1" (by decide) (by decide),
   c3_scheme_rules.2.2.2.2.1 "M" "_1" (by decide),
   c3_scheme_rules.2.2.2.2.2.1 "_1" ("A B").data (by decide) (by decide) (by decide),
   c3_scheme_rules.2.2.2.2.2.2.1 "kp" "_1" (by decide),
   c3_scheme_rules.2.2.2.2.2.2.2.1 "_1" ("A B").data (by decide) (by decide) (by decide)⟩

/-- C10 counterexample: `inf` parses as a float yet is suffixed in the
modifier segment, so numeric-looking bare tokens do not pass through in
every part of the scheme. -/
theorem c10_counterexample :
    is_float "inf" = true ∧
    rewrite_scheme "A -> B; inf" "_1" = some "A_1 -> B_1; inf_1 " := by
  decide

/-- C10 (amended): in the stoichiometry segment, any token whose text
Python `float()` accepts, including `1e3`, `inf` and `nan`, is treated
as a numeric literal and passed through without a suffix; the scheme
rewriter consults no catalog at all. -/
theorem c10_float_passthrough :
    (∀ (t S : String), is_float t = true → fixToken0 t S = t ++ " ") ∧
    is_float "1e3" = true ∧ is_float "inf" = true ∧ is_float "nan" = true := by
  refine ⟨?_, by decide, by decide, by decide⟩
  intro t S h
  simp only [fixToken0, h]
  rw [if_pos (Or.inr (Or.inr (Or.inr (Or.inl trivial))))]

/-- C10 witness: the exponent form `1e3` passes through unchanged. -/
theorem c10_witness : fixToken0 "1e3" "_1" = "1e3" ++ " " :=
  c10_float_passthrough.1 "1e3" "_1" (by decide)

/-- C4: an event whose trigger is unchanged by rewriting for every cell
suffix is emitted exactly once by the post-pass, with the trigger as
is, delay and priority rewritten against the primary suffix, and each
assignment pair expanded into one assignment per grid cell in row-major
order; an event whose trigger is changed for every cell suffix is
instead replicated once per cell with trigger, delay, priority, and
assignments rewritten with that cell's suffix. -/
theorem c4_event_triage (cat : Catalog) (nn : String) (R C : Nat) (e : MEvent)
    (hR : 1 ≤ R) (hC : 1 ≤ C) :
    ((∀ s ∈ suffixes R C, fix_expression cat nn e.trigger s = e.trigger) →
      buildEvents cat nn R C [e]
        = [{ name := e.name
             trigger := e.trigger
             delay := fix_expression cat nn e.delay (apdx1 R C)
             priority := fix_expression cat nn e.priority (apdx1 R C)
             assignments := e.assignments.flatMap fun a =>
               (suffixes R C).map fun s =>
                 (fix_expression cat nn a.1 s, fix_expression cat nn a.2 s)
             persistent := e.persistent
             fire_at_initial_time := e.fire_at_initial_time
             delay_calculation := e.delay_calculation }]) ∧
    ((∀ s ∈ suffixes R C, fix_expression cat nn e.trigger s ≠ e.trigger) →
      buildEvents cat nn R C [e] = (suffixes R C).map fun s => percellEvent cat nn e s) := by
  have hpos : 0 < R * C := Nat.mul_pos hR hC
  have hne : suffixes R C ≠ [] := by
    intro hnil
    have hlen := suffixes_length R C
    rw [hnil] at hlen
    simp at hlen
    omega
  obtain ⟨last, hlast⟩ : ∃ a, (suffixes R C).getLast? = some a := by
    cases hgl : (suffixes R C).getLast? with
    | none => exact absurd (List.getLast?_eq_none_iff.mp hgl) hne
    | some a => exact ⟨a, rfl⟩
  have hmem : last ∈ suffixes R C := List.mem_of_mem_getLast? hlast
  constructor
  · intro h
    have hemit : (suffixes R C).flatMap (fun s => (cellEvents cat nn [e] s).1) = [] := by
      apply flatMap_nil_of
      intro s hs
      rw [cellEvents_single_timeonly cat nn e s (h s hs)]
    have htonly : (cellEvents cat nn [e] last).2 = [e] := by
      rw [cellEvents_single_timeonly cat nn e last (h last hmem)]
    simp only [buildEvents, hemit, hlast, htonly, List.map_cons, List.map_nil,
      List.nil_append]
    rfl
  · intro h
    have hemit : (suffixes R C).flatMap (fun s => (cellEvents cat nn [e] s).1)
        = (suffixes R C).flatMap fun s => [percellEvent cat nn e s] := by
      apply flatMap_congr_of
      intro s hs
      rw [cellEvents_single_changed cat nn e s (h s hs)]
    have htonly : (cellEvents cat nn [e] last).2 = [] := by
      rw [cellEvents_single_changed cat nn e last (h last hmem)]
    simp only [buildEvents, hemit, hlast, htonly, List.map_nil, List.append_nil]
    rw [flatMap_singleton_eq_map]

/-- C4 witness: on a 2x1 grid with catalog species `A`, the time-only
event with trigger `Time > 5` is emitted once with its assignments
expanded over both cells, and the event with trigger `[A] > 5` is
replicated per cell. -/
theorem c4_witness :
    buildEvents ⟨[], [], ["A"], []⟩ "N" 2 1
        [{ name := "ev1", trigger := "Time > 5", delay := "", priority := "",
           assignments := [("[A]", "0")], persistent := false,
           fire_at_initial_time := false, delay_calculation := true }]
      = [{ name := "ev1"
           trigger := "Time > 5"
           delay := fix_expression ⟨[], [], ["A"], []⟩ "N" "" (apdx1 2 1)
           priority := fix_expression ⟨[], [], ["A"], []⟩ "N" "" (apdx1 2 1)
           assignments := [("[A]", "0")].flatMap fun a =>
             (suffixes 2 1).map fun s =>
               (fix_expression ⟨[], [], ["A"], []⟩ "N" a.1 s,
                fix_expression ⟨[], [], ["A"], []⟩ "N" a.2 s)
           persistent := false
           fire_at_initial_time := false
           delay_calculation := true }] ∧
    buildEvents ⟨[], [], ["A"], []⟩ "N" 2 1
        [{ name := "ev2", trigger := "[A] > 5", delay := "", priority := "",
           assignments := [("[A]", "0")], persistent := false,
           fire_at_initial_time := false, delay_calculation := true }]
      = (suffixes 2 1).map fun s =>
          percellEvent ⟨[], [], ["A"], []⟩ "N"
            { name := "ev2", trigger := "[A] > 5", delay := "", priority := "",
              assignments := [("[A]", "0")], persistent := false,
              fire_at_initial_time := false, delay_calculation := true } s :=
  ⟨(c4_event_triage ⟨[], [], ["A"], []⟩ "N" 2 1
      { name := "ev1", trigger := "Time > 5", delay := "", priority := "",
        assignments := [("[A]", "0")], persistent := false,
        fire_at_initial_time := false, delay_calculation := true }
      (by decide) (by decide)).1 (by decide),
   (c4_event_triage ⟨[], [], ["A"], []⟩ "N" 2 1
      { name := "ev2", trigger := "[A] > 5", delay := "", priority := "",
        assignments := [("[A]", "0")], persistent := false,
        fire_at_initial_time := false, delay_calculation := true }
      (by decide) (by decide)).2 (by decide)⟩

end MEC
